import Mathlib

/-!
Shallow embedding of the k-value MinHash sketch library (`kmh.h`) and proofs
about its operations: `kmh_add`, `kmh_cardinality`, `kmh_merge`, `kmh_distance`,
`kmh_serialize`, `kmh_deserialize`, `kmh_cardinality_from_serialized`.

Modelling conventions:
* C `uint32_t` arithmetic is `Nat` with explicit `% 2^32` wherever the C
  computation can wrap.
* The sketch struct `kvalue_minhash_t` is a structure holding `k`,
  `space_size`, `seed` and the list of stored hashes; the C `count` field is
  always kept equal to the number of stored hashes by every operation, so the
  model derives `count` as the length of that list.
* `double` results (`kmh_cardinality`, `kmh_distance`,
  `kmh_cardinality_from_serialized`) are modelled over `ℚ`, mirroring the exact
  arithmetic expressions evaluated by the C code.
* Byte buffers are `List ℕ` of byte values.  `kmh_serialize` performs
  `memcpy(buf, kmh, sizeof(kvalue_minhash_t))`: on an LP64 little-endian
  platform that is a 24-byte prefix — `k`, `count`, `space_size`, `seed` as
  4-byte little-endian words at offsets 0, 4, 8, 12, then the 8-byte `hashes`
  pointer at offset 16 — followed by the stored hash values, 4 bytes each,
  from offset 24.  The pointer value written into bytes 16–23 (the post-copy
  fix-up stores `buf + 24` there) is a runtime address, so the model takes it
  as an explicit parameter `ptr`.
* Pool/heap allocation (`kmh_init` pool claim, `kmh_get_buffer`) always
  succeeds in the model: allocation failure is an environment condition, and
  every claim treated here is about the successful-allocation behaviour.
-/

namespace KMH

/-- Modulus of C `uint32_t` arithmetic. -/
def U32 : ℕ := 2 ^ 32

/-- Modulus of C 64-bit pointer values (LP64). -/
def U64 : ℕ := 2 ^ 64

/-- MAX_K from kmh.h. -/
def MAX_K : ℕ := 1024

/-- XXH_PRIME32_2 from kmh.h. -/
def XXH_PRIME32_2 : ℕ := 0x85EBCA77

/-- XXH_PRIME32_3 from kmh.h. -/
def XXH_PRIME32_3 : ℕ := 0xC2B2AE3D

/-- XXH_PRIME32_4 from kmh.h. -/
def XXH_PRIME32_4 : ℕ := 0x27D4EB2F

/-- XXH_PRIME32_5 from kmh.h. -/
def XXH_PRIME32_5 : ℕ := 0x165667B1

/-- xxh32_rotl from kmh.h: 32-bit rotate left. -/
def xxh32_rotl (x r : ℕ) : ℕ := ((x <<< r) % U32) ||| (x >>> (32 - r))

/-- xxh32_hash from kmh.h: the seeded avalanche mix, all steps in uint32
arithmetic. -/
def xxh32_hash (input seed : ℕ) : ℕ :=
  let h0 := (seed % U32 + XXH_PRIME32_5 + 4) % U32
  let h1 := (h0 + (input % U32) * XXH_PRIME32_3) % U32
  let h2 := (xxh32_rotl h1 17 * XXH_PRIME32_4) % U32
  let h3 := h2 ^^^ (h2 >>> 15)
  let h4 := (h3 * XXH_PRIME32_2) % U32
  let h5 := h4 ^^^ (h4 >>> 13)
  let h6 := (h5 * XXH_PRIME32_3) % U32
  h6 ^^^ (h6 >>> 16)

/-- kvalue_minhash_t from kmh.h.  The stored hashes are kept sorted
descending; the C `count` field equals `hashes.length` at all times. -/
structure kvalue_minhash_t where
  k : ℕ
  space_size : ℕ
  seed : ℕ
  hashes : List ℕ
deriving DecidableEq, Repr

/-- The C `count` field: number of stored hashes. -/
def kvalue_minhash_t.count (s : kvalue_minhash_t) : ℕ := s.hashes.length

/-- kmh_init from kmh.h: fresh sketch, `count = 0`. -/
def kmh_init (k space_size seed : ℕ) : kvalue_minhash_t :=
  ⟨k, space_size, seed, []⟩

/-- The sorted-insertion loop of `kmh_add` (shift elements right while they are
smaller than the new hash, then write it), acting on a descending list. -/
def insert_desc (h : ℕ) : List ℕ → List ℕ
  | [] => [h]
  | x :: xs => if x < h then h :: x :: xs else x :: insert_desc h xs

/-- kmh_add from kmh.h: hash the value into `[0, space_size)`; duplicates are
a no-op; below capacity insert in descending order; at capacity discard hashes
not below `hashes[0]`, otherwise evict `hashes[0]` (shift left) and insert. -/
def kmh_add (s : kvalue_minhash_t) (value : ℕ) : kvalue_minhash_t :=
  let hash := xxh32_hash value s.seed % s.space_size
  if hash ∈ s.hashes then s
  else if s.hashes.length < s.k then { s with hashes := insert_desc hash s.hashes }
  else if s.hashes.headI ≤ hash then s
  else { s with hashes := insert_desc hash s.hashes.tail }

/-- kmh_cardinality from kmh.h.  `kmh->k - 1` and `kmh->hashes[0] + 1` are
uint32 computations, hence the explicit wrap-arounds. -/
def kmh_cardinality (s : kvalue_minhash_t) : ℚ :=
  if s.hashes.length = 0 then 0
  else if s.hashes.length < s.k then (s.hashes.length : ℚ)
  else ((s.space_size : ℚ) * (((s.k + (U32 - 1)) % U32 : ℕ) : ℚ)) /
    (((s.hashes.headI + 1) % U32 : ℕ) : ℚ)

/-- The merge loop of kmh_merge: both descending arrays are consumed from
their tails (hence the arguments here are the reversed, ascending lists), the
smaller current value is appended each step (on a tie one value is taken and
both advance), and the loop stops after `k` emissions (`fuel`) or when both
inputs are exhausted. -/
def merge_walk : ℕ → List ℕ → List ℕ → List ℕ
  | 0, _, _ => []
  | _ + 1, [], [] => []
  | n + 1, [], y :: ys => y :: merge_walk n [] ys
  | n + 1, x :: xs, [] => x :: merge_walk n xs []
  | n + 1, x :: xs, y :: ys =>
    if x < y then x :: merge_walk n xs (y :: ys)
    else if y < x then y :: merge_walk n (x :: xs) ys
    else x :: merge_walk n xs ys

/-- kmh_merge from kmh.h: `NULL` (here `none`) on parameter mismatch,
otherwise a fresh sketch whose array is the merge-walk output reversed back to
descending order. -/
def kmh_merge (a b : kvalue_minhash_t) : Option kvalue_minhash_t :=
  if a.k ≠ b.k ∨ a.space_size ≠ b.space_size ∨ a.seed ≠ b.seed then none
  else some
    { k := a.k, space_size := a.space_size, seed := a.seed,
      hashes := (merge_walk a.k a.hashes.reverse b.hashes.reverse).reverse }

/-- The comparison loop of kmh_distance: walks both descending lists,
counting `(matches, compared)`; each iteration advances the pointer with the
larger head (both on equality, counting a match) and stops when either list is
exhausted or `compared` reaches `a->k` (the fuel). -/
def dist_walk : ℕ → List ℕ → List ℕ → ℕ × ℕ
  | 0, _, _ => (0, 0)
  | _ + 1, [], _ => (0, 0)
  | _ + 1, _ :: _, [] => (0, 0)
  | f + 1, x :: xs, y :: ys =>
    if x = y then
      let p := dist_walk f xs ys
      (p.1 + 1, p.2 + 1)
    else if y < x then
      let p := dist_walk f xs (y :: ys)
      (p.1, p.2 + 1)
    else
      let p := dist_walk f (x :: xs) ys
      (p.1, p.2 + 1)

/-- kmh_distance from kmh.h: `-1.0` on parameter mismatch, else
`1 - matches/compared`, and `1.0` when nothing was compared. -/
def kmh_distance (a b : kvalue_minhash_t) : ℚ :=
  if a.k ≠ b.k ∨ a.space_size ≠ b.space_size ∨ a.seed ≠ b.seed then -1
  else
    let p := dist_walk a.k a.hashes b.hashes
    if 0 < p.2 then 1 - (p.1 : ℚ) / (p.2 : ℚ) else 1

/-- Little-endian byte image of a value on `w` bytes (the effect of `memcpy`
of a `w`-byte unsigned integer on a little-endian platform): byte `i` is
`n / 256 ^ i % 256`. -/
def le_bytes : ℕ → ℕ → List ℕ
  | 0, _ => []
  | w + 1, n => n % 256 :: le_bytes w (n / 256)

/-- Read a 4-byte little-endian word at byte offset `off` (the effect of
`memcpy(&value, buf + off, 4)` / `int32_decode_direct`). -/
def rd32 (buf : List ℕ) (off : ℕ) : ℕ :=
  (buf.drop off).getD 0 0 + 256 * (buf.drop off).getD 1 0 +
    256 ^ 2 * (buf.drop off).getD 2 0 + 256 ^ 3 * (buf.drop off).getD 3 0

/-- kmh_serialize from kmh.h: raw dump of the 24-byte struct (fields at
offsets 0, 4, 8, 12, the 8-byte `hashes` pointer at offset 16, value `ptr`
after the in-buffer fix-up) followed by the `count` stored hashes, 4 bytes
each, in stored order.  Total length `24 + 4 * count`. -/
def kmh_serialize (s : kvalue_minhash_t) (ptr : ℕ) : List ℕ :=
  le_bytes 4 s.k ++ (le_bytes 4 s.hashes.length ++ (le_bytes 4 s.space_size ++
    (le_bytes 4 s.seed ++ (le_bytes 8 ptr ++ (s.hashes.map (le_bytes 4)).flatten))))

/-- kmh_deserialize from kmh.h: reject buffers shorter than the 24-byte
struct, or with `count > k`, `k > MAX_K * 10`, or fewer than
`24 + count * 4` bytes; otherwise rebuild the sketch, copying the `count`
hash words that follow the struct (`k` at offset 0, `count` at 4,
`space_size` at 8, `seed` at 12). -/
def kmh_deserialize (buf : List ℕ) : Option kvalue_minhash_t :=
  if buf.length < 24 then none
  else if rd32 buf 4 > rd32 buf 0 ∨ rd32 buf 0 > MAX_K * 10 ∨
      buf.length < 24 + rd32 buf 4 * 4 then none
  else some
    { k := rd32 buf 0, space_size := rd32 buf 8, seed := rd32 buf 12,
      hashes := (List.range (rd32 buf 4)).map fun i => rd32 buf (24 + 4 * i) }

/-- kmh_cardinality_from_serialized from kmh.h: `-1.0` for buffers shorter
than 16 bytes; reads `k` at offset 0, `count` at 4, `space_size` at 8 and,
when saturated, the 4-byte word at offset 16 as the divisor term.  `k - 1`
and `delta + 1` are uint32 computations. -/
def kmh_cardinality_from_serialized (buf : List ℕ) : ℚ :=
  if buf.length < 16 then -1
  else if rd32 buf 4 = 0 then 0
  else if rd32 buf 4 < rd32 buf 0 then (rd32 buf 4 : ℚ)
  else ((rd32 buf 8 : ℚ) * (((rd32 buf 0 + (U32 - 1)) % U32 : ℕ) : ℚ)) /
    (((rd32 buf 16 + 1) % U32 : ℕ) : ℚ)

/-- A list `l` is exactly the `min k O.card` smallest elements of the finite
set `O`, stored strictly descending: it is sorted descending, drawn from `O`,
has that length, and every element of `O` outside `l` exceeds every element
of `l`. -/
def IsKSmallest (k : ℕ) (O : Finset ℕ) (l : List ℕ) : Prop :=
  l.Sorted (· > ·) ∧ (∀ x ∈ l, x ∈ O) ∧ l.length = min k O.card ∧
    ∀ a ∈ l, ∀ b ∈ O, b ∉ l → a < b

/-- The body of `kmh_add` after the hash has been computed, as a function of
the capacity, the hash and the stored list. -/
def add_hashes (k h : ℕ) (l : List ℕ) : List ℕ :=
  if h ∈ l then l
  else if l.length < k then insert_desc h l
  else if l.headI ≤ h then l
  else insert_desc h l.tail

theorem insert_desc_length (h : ℕ) (l : List ℕ) :
    (insert_desc h l).length = l.length + 1 := by
  induction l with
  | nil => rfl
  | cons x xs ih => by_cases hx : x < h <;> simp [insert_desc, hx, ih]

theorem mem_insert_desc {x h : ℕ} {l : List ℕ} :
    x ∈ insert_desc h l ↔ x = h ∨ x ∈ l := by
  induction l with
  | nil => simp [insert_desc]
  | cons y ys ih =>
    by_cases hy : y < h
    · simp only [insert_desc, if_pos hy, List.mem_cons]
    · simp only [insert_desc, if_neg hy, List.mem_cons, ih]
      tauto

theorem insert_desc_sorted {h : ℕ} {l : List ℕ} (hs : l.Sorted (· > ·))
    (hn : h ∉ l) : (insert_desc h l).Sorted (· > ·) := by
  induction l with
  | nil => simp [insert_desc]
  | cons x xs ih =>
    rw [List.sorted_cons] at hs
    obtain ⟨hx_gt, hxs⟩ := hs
    by_cases hx : x < h
    · simp only [insert_desc, if_pos hx]
      rw [List.sorted_cons, List.sorted_cons]
      refine ⟨?_, hx_gt, hxs⟩
      intro b hb
      rcases List.mem_cons.mp hb with rfl | hb
      · exact hx
      · exact lt_trans (hx_gt b hb) hx
    · simp only [insert_desc, if_neg hx]
      rw [List.sorted_cons]
      have hne : h ≠ x := fun heq => hn (heq ▸ List.mem_cons_self x xs)
      refine ⟨?_, ih hxs fun hmem => hn (List.mem_cons_of_mem x hmem)⟩
      intro b hb
      rcases mem_insert_desc.mp hb with rfl | hb
      · exact lt_of_le_of_ne (not_lt.mp hx) hne
      · exact hx_gt b hb

/-- A list drawn without repetition from a finite set of the same size
contains every element of the set. -/
theorem mem_of_subset_full {l : List ℕ} {O : Finset ℕ}
    (hsub : ∀ x ∈ l, x ∈ O) (hnd : l.Nodup) (hlen : l.length = O.card) :
    ∀ b ∈ O, b ∈ l := by
  have h1 : l.toFinset ⊆ O := fun x hx => hsub x (List.mem_toFinset.mp hx)
  have h2 : O.card ≤ l.toFinset.card := by
    rw [List.toFinset_card_of_nodup hnd, hlen]
  have h3 := Finset.eq_of_subset_of_card_le h1 h2
  intro b hb
  rw [← h3] at hb
  exact List.mem_toFinset.mp hb

/-- One `kmh_add` step preserves the k-smallest invariant, with the observed
set growing by the new hash. -/
theorem add_hashes_step {k : ℕ} {O : Finset ℕ} {l : List ℕ} (h : ℕ)
    (hk : 0 < k) (hinv : IsKSmallest k O l) :
    IsKSmallest k (insert h O) (add_hashes k h l) := by
  obtain ⟨hsort, hsub, hlen, hmin⟩ := hinv
  have hnd : l.Nodup := hsort.nodup
  unfold add_hashes
  by_cases hmem : h ∈ l
  · rw [if_pos hmem, Finset.insert_eq_self.mpr (hsub h hmem)]
    exact ⟨hsort, hsub, hlen, hmin⟩
  rw [if_neg hmem]
  by_cases hlt : l.length < k
  · rw [if_pos hlt]
    have hfull : l.length = O.card := by omega
    have hOl : ∀ b ∈ O, b ∈ l := mem_of_subset_full hsub hnd hfull
    have hhO : h ∉ O := fun hc => hmem (hOl h hc)
    refine ⟨insert_desc_sorted hsort hmem, ?_, ?_, ?_⟩
    · intro x hx
      rcases mem_insert_desc.mp hx with rfl | hx
      · exact Finset.mem_insert_self x O
      · exact Finset.mem_insert_of_mem (hsub x hx)
    · rw [insert_desc_length, Finset.card_insert_of_not_mem hhO]
      omega
    · intro a _ b hb hbn
      exfalso
      rcases Finset.mem_insert.mp hb with rfl | hbO
      · exact hbn (mem_insert_desc.mpr (Or.inl rfl))
      · exact hbn (mem_insert_desc.mpr (Or.inr (hOl b hbO)))
  · rw [if_neg hlt]
    have hlk : l.length = k := by omega
    have hOk : k ≤ O.card := by omega
    obtain ⟨a, t, rfl⟩ : ∃ a t, l = a :: t := by
      cases l with
      | nil => simp at hlk; omega
      | cons a t => exact ⟨a, t, rfl⟩
    rw [List.sorted_cons] at hsort
    obtain ⟨hagt, hts⟩ := hsort
    have hcard_le : O.card ≤ (insert h O).card :=
      Finset.card_le_card (Finset.subset_insert h O)
    by_cases hle : (a :: t).headI ≤ h
    · rw [if_pos hle]
      simp only [List.headI_cons] at hle
      refine ⟨List.sorted_cons.mpr ⟨hagt, hts⟩, ?_, ?_, ?_⟩
      · exact fun x hx => Finset.mem_insert_of_mem (hsub x hx)
      · omega
      · intro x hx b hb hbn
        rcases Finset.mem_insert.mp hb with rfl | hbO
        · have hxa : x ≤ a := by
            rcases List.mem_cons.mp hx with rfl | hxt
            · exact le_refl x
            · exact le_of_lt (hagt x hxt)
          have hxb : x ≠ b := fun heq => hmem (heq ▸ hx)
          omega
        · exact hmin x hx b hbO hbn
    · rw [if_neg hle]
      simp only [List.headI_cons, not_le] at hle
      have hhO : h ∉ O := by
        intro hc
        have := hmin a (List.mem_cons_self a t) h hc hmem
        omega
      have hhnt : h ∉ t := fun hc => hmem (List.mem_cons_of_mem a hc)
      refine ⟨insert_desc_sorted hts hhnt, ?_, ?_, ?_⟩
      · intro x hx
        rcases mem_insert_desc.mp hx with rfl | hx
        · exact Finset.mem_insert_self x O
        · exact Finset.mem_insert_of_mem (hsub x (List.mem_cons_of_mem a hx))
      · rw [List.tail_cons, insert_desc_length, Finset.card_insert_of_not_mem hhO]
        simp only [List.length_cons] at hlk
        omega
      · intro x hx b hb hbn
        rcases Finset.mem_insert.mp hb with rfl | hbO
        · exact absurd (mem_insert_desc.mpr (Or.inl rfl)) hbn
        · by_cases hbl : b ∈ a :: t
          · rcases List.mem_cons.mp hbl with rfl | hbt
            · rcases mem_insert_desc.mp hx with rfl | hxt
              · exact hle
              · exact hagt x hxt
            · exact absurd (mem_insert_desc.mpr (Or.inr hbt)) hbn
          · rcases mem_insert_desc.mp hx with rfl | hxt
            · have hab := hmin a (List.mem_cons_self a t) b hbO hbl
              omega
            · exact hmin x (List.mem_cons_of_mem a hxt) b hbO hbl

/-- `kmh_add` splits into field preservation plus the `add_hashes` list
transformation. -/
theorem kmh_add_eq (s : kvalue_minhash_t) (v : ℕ) :
    kmh_add s v =
      { s with hashes := add_hashes s.k (xxh32_hash v s.seed % s.space_size) s.hashes } := by
  simp only [kmh_add, add_hashes]
  split_ifs <;> rfl

/-- Folding `kmh_add` over any value sequence keeps the parameters fixed and
maintains the k-smallest invariant for the set of observed hashes. -/
theorem kmh_add_foldl_spec (k space seed : ℕ) (hk : 0 < k) (hsp : 0 < space) :
    ∀ (vs : List ℕ) (O : Finset ℕ) (l : List ℕ),
      (∀ x ∈ O, x < space) → IsKSmallest k O l →
      (List.foldl kmh_add ⟨k, space, seed, l⟩ vs).k = k ∧
        (List.foldl kmh_add ⟨k, space, seed, l⟩ vs).space_size = space ∧
        (List.foldl kmh_add ⟨k, space, seed, l⟩ vs).seed = seed ∧
        IsKSmallest k (O ∪ (vs.map fun v => xxh32_hash v seed % space).toFinset)
          (List.foldl kmh_add ⟨k, space, seed, l⟩ vs).hashes ∧
        ∀ x ∈ O ∪ (vs.map fun v => xxh32_hash v seed % space).toFinset, x < space
  | [], O, l, hO, hinv => by
    refine ⟨rfl, rfl, rfl, ?_, ?_⟩
    · simpa using hinv
    · simpa using hO
  | v :: vs, O, l, hO, hinv => by
    simp only [List.foldl_cons, List.map_cons, List.toFinset_cons]
    have hadd : kmh_add ⟨k, space, seed, l⟩ v =
        (⟨k, space, seed, add_hashes k (xxh32_hash v seed % space) l⟩ : kvalue_minhash_t) :=
      kmh_add_eq ⟨k, space, seed, l⟩ v
    rw [hadd]
    have hstep := add_hashes_step (xxh32_hash v seed % space) hk hinv
    have hO' : ∀ x ∈ insert (xxh32_hash v seed % space) O, x < space := by
      intro x hx
      rcases Finset.mem_insert.mp hx with rfl | hxO
      · exact Nat.mod_lt _ hsp
      · exact hO x hxO
    have hrec := kmh_add_foldl_spec k space seed hk hsp vs
      (insert (xxh32_hash v seed % space) O)
      (add_hashes k (xxh32_hash v seed % space) l) hO' hstep
    rw [Finset.insert_union] at hrec
    rw [Finset.union_insert]
    exact hrec

/-- C1: starting from `kmh_init k space seed` (`count = 0`), after every
sequence of `kmh_add` calls the stored hashes are strictly descending, each
stored hash is below `space`, the count equals `min k` (number of distinct
hashes produced so far), the count never exceeds `k`, the stored hashes are
exactly the `min k n` smallest distinct observed hashes, and adding a value
whose hash is already stored leaves the sketch unchanged. -/
theorem c1_add_invariants (k space seed : ℕ) (vs : List ℕ)
    (s : kvalue_minhash_t) (hs : s = List.foldl kmh_add (kmh_init k space seed) vs)
    (hk : 0 < k) (hsp : 0 < space) :
    s.hashes.Sorted (· > ·) ∧
    (∀ h ∈ s.hashes, h < space) ∧
    s.count = min k ((vs.map fun v => xxh32_hash v seed % space).toFinset.card) ∧
    s.count ≤ k ∧
    IsKSmallest k ((vs.map fun v => xxh32_hash v seed % space).toFinset) s.hashes ∧
    ∀ v, xxh32_hash v seed % space ∈ s.hashes → kmh_add s v = s := by
  have hbase : IsKSmallest k (∅ : Finset ℕ) ([] : List ℕ) := by
    refine ⟨List.sorted_nil, ?_, ?_, ?_⟩ <;> simp
  have h0 : ∀ x ∈ (∅ : Finset ℕ), x < space := by simp
  have hmain := kmh_add_foldl_spec k space seed hk hsp vs ∅ [] h0 hbase
  rw [Finset.empty_union] at hmain
  obtain ⟨hk', hsp', hseed', hinv, hbound⟩ := hmain
  subst hs
  simp only [kmh_init, kvalue_minhash_t.count]
  refine ⟨hinv.1, ?_, ?_, ?_, hinv, ?_⟩
  · intro h hh
    exact hbound h (hinv.2.1 h hh)
  · exact hinv.2.2.1
  · rw [hinv.2.2.1]
    exact min_le_left _ _
  · intro v hv
    rw [kmh_add_eq]
    have harg : xxh32_hash v (List.foldl kmh_add ⟨k, space, seed, []⟩ vs).seed %
        (List.foldl kmh_add ⟨k, space, seed, []⟩ vs).space_size =
        xxh32_hash v seed % space := by
      rw [hseed', hsp']
    rw [harg]
    rw [show add_hashes
        (List.foldl kmh_add ⟨k, space, seed, []⟩ vs).k
        (xxh32_hash v seed % space)
        (List.foldl kmh_add ⟨k, space, seed, []⟩ vs).hashes =
        (List.foldl kmh_add ⟨k, space, seed, []⟩ vs).hashes from by
      unfold add_hashes
      rw [if_pos hv]]

theorem c1_add_invariants_witness :
    (List.foldl kmh_add (kmh_init 2 100 5) [1, 2, 3]).hashes.Sorted (· > ·) ∧
    (∀ h ∈ (List.foldl kmh_add (kmh_init 2 100 5) [1, 2, 3]).hashes, h < 100) ∧
    (List.foldl kmh_add (kmh_init 2 100 5) [1, 2, 3]).count =
      min 2 (([1, 2, 3].map fun v => xxh32_hash v 5 % 100).toFinset.card) ∧
    (List.foldl kmh_add (kmh_init 2 100 5) [1, 2, 3]).count ≤ 2 ∧
    IsKSmallest 2 (([1, 2, 3].map fun v => xxh32_hash v 5 % 100).toFinset)
      (List.foldl kmh_add (kmh_init 2 100 5) [1, 2, 3]).hashes ∧
    ∀ v, xxh32_hash v 5 % 100 ∈ (List.foldl kmh_add (kmh_init 2 100 5) [1, 2, 3]).hashes →
      kmh_add (List.foldl kmh_add (kmh_init 2 100 5) [1, 2, 3]) v =
        List.foldl kmh_add (kmh_init 2 100 5) [1, 2, 3] :=
  c1_add_invariants 2 100 5 [1, 2, 3] _ rfl (by decide) (by decide)

/-- The head of a non-empty list is a member. -/
theorem headI_mem_of_ne_nil {l : List ℕ} (h : l ≠ []) : l.headI ∈ l := by
  cases l with
  | nil => exact absurd rfl h
  | cons a t => exact List.mem_cons_self a t

/-- C2: `kmh_cardinality` returns `0` on an empty sketch, the exact count on
an unsaturated sketch, and `space_size * (k - 1) / (hashes[0] + 1)` on a
saturated one.  The hypotheses are the sketch invariants (`space_size` and
`k` are uint32 values, stored hashes lie below `space_size`). -/
theorem c2_cardinality (s : kvalue_minhash_t)
    (hsp : s.space_size < U32) (hk32 : s.k < U32)
    (hb : ∀ h ∈ s.hashes, h < s.space_size) :
    (s.count = 0 → kmh_cardinality s = 0) ∧
    (0 < s.count → s.count < s.k → kmh_cardinality s = (s.count : ℚ)) ∧
    (s.count = s.k → 0 < s.count →
      kmh_cardinality s =
        ((s.space_size : ℚ) * ((s.k : ℚ) - 1)) / ((s.hashes.headI : ℚ) + 1)) := by
  have hU : U32 = 4294967296 := rfl
  simp only [kvalue_minhash_t.count]
  refine ⟨?_, ?_, ?_⟩
  · intro h0
    unfold kmh_cardinality
    rw [if_pos h0]
  · intro hpos hlt
    unfold kmh_cardinality
    rw [if_neg (by omega : ¬s.hashes.length = 0), if_pos hlt]
  · intro heq hpos
    have hne : s.hashes ≠ [] := by
      intro hnil
      rw [hnil] at hpos
      simp at hpos
    have hhead : s.hashes.headI < s.space_size := hb _ (headI_mem_of_ne_nil hne)
    unfold kmh_cardinality
    rw [if_neg (by omega : ¬s.hashes.length = 0), if_neg (by omega : ¬s.hashes.length < s.k)]
    have h1 : (s.k + (U32 - 1)) % U32 = s.k - 1 := by
      rw [hU] at hk32 ⊢
      omega
    have h2 : (s.hashes.headI + 1) % U32 = s.hashes.headI + 1 := by
      rw [hU] at hsp ⊢
      omega
    rw [h1, h2]
    have hk1 : 1 ≤ s.k := by omega
    push_cast [Nat.cast_sub hk1]
    ring

theorem c2_cardinality_witness :
    ((⟨2, 1000, 7, [500, 100]⟩ : kvalue_minhash_t).count = 0 →
      kmh_cardinality ⟨2, 1000, 7, [500, 100]⟩ = 0) ∧
    (0 < (⟨2, 1000, 7, [500, 100]⟩ : kvalue_minhash_t).count →
      (⟨2, 1000, 7, [500, 100]⟩ : kvalue_minhash_t).count <
        (⟨2, 1000, 7, [500, 100]⟩ : kvalue_minhash_t).k →
      kmh_cardinality ⟨2, 1000, 7, [500, 100]⟩ =
        ((⟨2, 1000, 7, [500, 100]⟩ : kvalue_minhash_t).count : ℚ)) ∧
    ((⟨2, 1000, 7, [500, 100]⟩ : kvalue_minhash_t).count =
        (⟨2, 1000, 7, [500, 100]⟩ : kvalue_minhash_t).k →
      0 < (⟨2, 1000, 7, [500, 100]⟩ : kvalue_minhash_t).count →
      kmh_cardinality ⟨2, 1000, 7, [500, 100]⟩ =
        (((⟨2, 1000, 7, [500, 100]⟩ : kvalue_minhash_t).space_size : ℚ) *
          (((⟨2, 1000, 7, [500, 100]⟩ : kvalue_minhash_t).k : ℚ) - 1)) /
          (((⟨2, 1000, 7, [500, 100]⟩ : kvalue_minhash_t).hashes.headI : ℚ) + 1)) :=
  c2_cardinality ⟨2, 1000, 7, [500, 100]⟩ (by decide) (by decide) (by decide)

/-- The comparison loop leaves `(0, 0)` whenever either list is empty. -/
theorem dist_walk_nil (n : ℕ) (xs ys : List ℕ) (h : xs = [] ∨ ys = []) :
    dist_walk n xs ys = (0, 0) := by
  cases n with
  | zero => rfl
  | succ n =>
    rcases h with rfl | rfl
    · rfl
    · cases xs with
      | nil => rfl
      | cons x xs => rfl

/-- On two copies of the same list the comparison loop matches every element
until the list or the fuel runs out. -/
theorem dist_walk_self (n : ℕ) :
    ∀ l : List ℕ, dist_walk n l l = (min n l.length, min n l.length) := by
  induction n with
  | zero => intro l; simp [dist_walk]
  | succ n ih =>
    intro l
    cases l with
    | nil => simp [dist_walk]
    | cons x xs =>
      have hmin : min (n + 1) (xs.length + 1) = min n xs.length + 1 := by omega
      simp [dist_walk, ih xs, hmin]

/-- C7: for compatible sketches `kmh_distance` is `1 - matches/compared` as
computed by the synchronized walk (`1` when nothing was compared); the
self-distance of a non-empty sketch respecting `count ≤ k` is `0`; the
distance of two compatible empty sketches is `1`. -/
theorem c7_distance_spec :
    (∀ a b : kvalue_minhash_t, a.k = b.k → a.space_size = b.space_size → a.seed = b.seed →
      kmh_distance a b =
        (if 0 < (dist_walk a.k a.hashes b.hashes).2 then
          1 - ((dist_walk a.k a.hashes b.hashes).1 : ℚ) /
            ((dist_walk a.k a.hashes b.hashes).2 : ℚ)
        else 1)) ∧
    (∀ s : kvalue_minhash_t, s.hashes ≠ [] → s.hashes.length ≤ s.k →
      kmh_distance s s = 0) ∧
    (∀ a b : kvalue_minhash_t, a.k = b.k → a.space_size = b.space_size → a.seed = b.seed →
      a.hashes = [] → b.hashes = [] → kmh_distance a b = 1) := by
  refine ⟨?_, ?_, ?_⟩
  · intro a b h1 h2 h3
    have hc : ¬(a.k ≠ b.k ∨ a.space_size ≠ b.space_size ∨ a.seed ≠ b.seed) := by
      simp [h1, h2, h3]
    unfold kmh_distance
    rw [if_neg hc]
  · intro s hne hlen
    have hc : ¬(s.k ≠ s.k ∨ s.space_size ≠ s.space_size ∨ s.seed ≠ s.seed) := by simp
    unfold kmh_distance
    rw [if_neg hc]
    have hl : 0 < s.hashes.length := List.length_pos.mpr hne
    have hmin : 0 < min s.k s.hashes.length := by omega
    rw [dist_walk_self]
    simp only [if_pos hmin]
    rw [div_self (by exact_mod_cast hmin.ne' : ((min s.k s.hashes.length : ℕ) : ℚ) ≠ 0)]
    ring
  · intro a b h1 h2 h3 ha hb
    have hc : ¬(a.k ≠ b.k ∨ a.space_size ≠ b.space_size ∨ a.seed ≠ b.seed) := by
      simp [h1, h2, h3]
    unfold kmh_distance
    rw [if_neg hc, dist_walk_nil a.k a.hashes b.hashes (Or.inl ha)]
    simp

theorem c7_distance_spec_witness :
    kmh_distance ⟨2, 100, 5, [70, 30]⟩ ⟨2, 100, 5, [70, 10]⟩ =
      (if 0 < (dist_walk 2 [70, 30] [70, 10]).2 then
        1 - ((dist_walk 2 [70, 30] [70, 10]).1 : ℚ) / ((dist_walk 2 [70, 30] [70, 10]).2 : ℚ)
      else 1) ∧
    kmh_distance ⟨2, 100, 5, [70, 30]⟩ ⟨2, 100, 5, [70, 30]⟩ = 0 ∧
    kmh_distance ⟨2, 100, 5, []⟩ ⟨2, 100, 5, []⟩ = 1 :=
  ⟨c7_distance_spec.1 ⟨2, 100, 5, [70, 30]⟩ ⟨2, 100, 5, [70, 10]⟩ rfl rfl rfl,
   c7_distance_spec.2.1 ⟨2, 100, 5, [70, 30]⟩ (by decide) (by decide),
   c7_distance_spec.2.2 ⟨2, 100, 5, []⟩ ⟨2, 100, 5, []⟩ rfl rfl rfl rfl rfl⟩

/-- C8: `kmh_merge` returns `none` (C: `NULL`) and `kmh_distance` returns the
sentinel `-1.0` whenever the two sketches differ in `k`, `space_size` or
`seed`. -/
theorem c8_incompatible (a b : kvalue_minhash_t)
    (h : a.k ≠ b.k ∨ a.space_size ≠ b.space_size ∨ a.seed ≠ b.seed) :
    kmh_merge a b = none ∧ kmh_distance a b = -1 := by
  constructor
  · unfold kmh_merge
    rw [if_pos h]
  · unfold kmh_distance
    rw [if_pos h]

theorem c8_incompatible_witness :
    kmh_merge ⟨1, 10, 0, []⟩ ⟨2, 10, 0, []⟩ = none ∧
    kmh_distance ⟨1, 10, 0, []⟩ ⟨2, 10, 0, []⟩ = -1 :=
  c8_incompatible ⟨1, 10, 0, []⟩ ⟨2, 10, 0, []⟩ (by decide)

theorem sorted_reverse_asc {l : List ℕ} (h : l.Sorted (· > ·)) :
    l.reverse.Sorted (· < ·) := by
  rw [List.Sorted, List.pairwise_reverse]
  exact h

theorem sorted_reverse_desc {l : List ℕ} (h : l.Sorted (· < ·)) :
    l.reverse.Sorted (· > ·) := by
  rw [List.Sorted, List.pairwise_reverse]
  exact h

/-- The four-part specification of the merge loop output relative to its two
(ascending) inputs: ascending order, membership, length `min fuel |union|`,
and the loop output being downward closed in the union. -/
def MergeWalkSpec (n : ℕ) (xs ys : List ℕ) : Prop :=
  (merge_walk n xs ys).Sorted (· < ·) ∧
    (∀ x ∈ merge_walk n xs ys, x ∈ xs ∨ x ∈ ys) ∧
    (merge_walk n xs ys).length = min n (xs.toFinset ∪ ys.toFinset).card ∧
    ∀ b, (b ∈ xs ∨ b ∈ ys) → b ∉ merge_walk n xs ys → ∀ a ∈ merge_walk n xs ys, a < b

/-- Lifting the merge-loop specification across one emitted element `v`. -/
theorem merge_walk_spec_step {n : ℕ} {xs' ys' xs ys : List ℕ} {v : ℕ}
    (hT : MergeWalkSpec n xs' ys')
    (hmem : ∀ z, (z ∈ xs ∨ z ∈ ys) ↔ (z = v ∨ z ∈ xs' ∨ z ∈ ys'))
    (hvlt : ∀ z, (z ∈ xs' ∨ z ∈ ys') → v < z)
    (hwalk : merge_walk (n + 1) xs ys = v :: merge_walk n xs' ys') :
    MergeWalkSpec (n + 1) xs ys := by
  obtain ⟨hTs, hTm, hTl, hTmin⟩ := hT
  have hvnot : ¬(v ∈ xs' ∨ v ∈ ys') := fun hc => lt_irrefl v (hvlt v hc)
  have hset : xs.toFinset ∪ ys.toFinset = insert v (xs'.toFinset ∪ ys'.toFinset) := by
    ext z
    simp only [Finset.mem_union, Finset.mem_insert, List.mem_toFinset]
    exact (hmem z).trans (by tauto)
  have hvfin : v ∉ xs'.toFinset ∪ ys'.toFinset := by
    simp only [Finset.mem_union, List.mem_toFinset]
    exact hvnot
  refine ⟨?_, ?_, ?_, ?_⟩
  · rw [hwalk, List.sorted_cons]
    exact ⟨fun b hb => hvlt b (hTm b hb), hTs⟩
  · intro x hx
    rw [hwalk] at hx
    rcases List.mem_cons.mp hx with rfl | hx
    · exact (hmem x).mpr (Or.inl rfl)
    · exact (hmem x).mpr (Or.inr (hTm x hx))
  · rw [hwalk, List.length_cons, hTl, hset, Finset.card_insert_of_not_mem hvfin]
    omega
  · intro b hb hbn a ha
    rw [hwalk] at hbn ha
    rcases (hmem b).mp hb with rfl | hb'
    · exact absurd (List.mem_cons_self b _) hbn
    · have hbT : b ∉ merge_walk n xs' ys' := fun hc => hbn (List.mem_cons_of_mem v hc)
      rcases List.mem_cons.mp ha with rfl | ha'
      · exact hvlt b hb'
      · exact hTmin b hb' hbT a ha'

/-- The merge loop of `kmh_merge`, run on two strictly ascending lists with
fuel `n`, returns the `min n |union|` smallest elements of the union of the
two lists, in ascending order. -/
theorem merge_walk_spec (n : ℕ) :
    ∀ xs ys : List ℕ, xs.Sorted (· < ·) → ys.Sorted (· < ·) →
      MergeWalkSpec n xs ys := by
  induction n with
  | zero =>
    intro xs ys _ _
    refine ⟨List.sorted_nil, ?_, ?_, ?_⟩
    · intro x hx
      simp [merge_walk] at hx
    · simp [merge_walk]
    · intro b _ _ a ha
      simp [merge_walk] at ha
  | succ n ih =>
    intro xs ys hxs hys
    cases xs with
    | nil =>
      cases ys with
      | nil =>
        refine ⟨List.sorted_nil, ?_, ?_, ?_⟩
        · intro x hx
          simp [merge_walk] at hx
        · simp [merge_walk]
        · intro b _ _ a ha
          simp [merge_walk] at ha
      | cons y ys' =>
        rw [List.sorted_cons] at hys
        obtain ⟨hy_lt, hys'⟩ := hys
        refine merge_walk_spec_step (ih [] ys' List.sorted_nil hys') ?_ ?_ rfl
        · intro z
          simp only [List.not_mem_nil, List.mem_cons, false_or]
        · intro z hz
          rcases hz with hz | hz
          · simp at hz
          · exact hy_lt z hz
    | cons x xs' =>
      rw [List.sorted_cons] at hxs
      obtain ⟨hx_lt, hxs'⟩ := hxs
      cases ys with
      | nil =>
        refine merge_walk_spec_step (ih xs' [] hxs' List.sorted_nil) ?_ ?_ rfl
        · intro z
          simp only [List.not_mem_nil, List.mem_cons, or_false]
        · intro z hz
          rcases hz with hz | hz
          · exact hx_lt z hz
          · simp at hz
      | cons y ys' =>
        rw [List.sorted_cons] at hys
        obtain ⟨hy_lt, hys'⟩ := hys
        rcases lt_trichotomy x y with hxy | hxy | hxy
        · refine merge_walk_spec_step (v := x)
            (ih xs' (y :: ys') hxs' (List.sorted_cons.mpr ⟨hy_lt, hys'⟩)) ?_ ?_ ?_
          · intro z
            simp only [List.mem_cons]
            tauto
          · intro z hz
            rcases hz with hz | hz
            · exact hx_lt z hz
            · rcases List.mem_cons.mp hz with rfl | hz
              · exact hxy
              · exact lt_trans hxy (hy_lt z hz)
          · simp only [merge_walk, if_pos hxy]
        · subst hxy
          refine merge_walk_spec_step (v := x) (ih xs' ys' hxs' hys') ?_ ?_ ?_
          · intro z
            simp only [List.mem_cons]
            tauto
          · intro z hz
            rcases hz with hz | hz
            · exact hx_lt z hz
            · exact hy_lt z hz
          · simp [merge_walk]
        · refine merge_walk_spec_step (v := y)
            (ih (x :: xs') ys' (List.sorted_cons.mpr ⟨hx_lt, hxs'⟩) hys') ?_ ?_ ?_
          · intro z
            simp only [List.mem_cons]
            tauto
          · intro z hz
            rcases hz with hz | hz
            · rcases List.mem_cons.mp hz with rfl | hz
              · exact hxy
              · exact lt_trans hxy (hx_lt z hz)
            · exact hy_lt z hz
          · simp only [merge_walk, if_neg (lt_asymm hxy), if_pos hxy]

/-- C3: merging two compatible sketches that satisfy the descending-order
invariant yields `some` fresh sketch with the same parameters whose stored
hashes are exactly the `min k n` smallest elements of the union of the two
hash sets (`n` the union's size), sorted strictly descending.  The model is
pure, so the inputs are unmodified by construction (the C code reads `a` and
`b` through const pointers and writes only the fresh result). -/
theorem c3_merge_spec (a b : kvalue_minhash_t)
    (hk : a.k = b.k) (hsp : a.space_size = b.space_size) (hseed : a.seed = b.seed)
    (ha : a.hashes.Sorted (· > ·)) (hb : b.hashes.Sorted (· > ·)) :
    ∃ m, kmh_merge a b = some m ∧ m.k = a.k ∧ m.space_size = a.space_size ∧
      m.seed = a.seed ∧
      IsKSmallest a.k (a.hashes.toFinset ∪ b.hashes.toFinset) m.hashes := by
  have hc : ¬(a.k ≠ b.k ∨ a.space_size ≠ b.space_size ∨ a.seed ≠ b.seed) := by
    simp [hk, hsp, hseed]
  refine ⟨⟨a.k, a.space_size, a.seed,
      (merge_walk a.k a.hashes.reverse b.hashes.reverse).reverse⟩,
    by unfold kmh_merge; rw [if_neg hc], rfl, rfl, rfl, ?_⟩
  obtain ⟨hws, hwm, hwl, hwmin⟩ :=
    merge_walk_spec a.k a.hashes.reverse b.hashes.reverse
      (sorted_reverse_asc ha) (sorted_reverse_asc hb)
  set w := merge_walk a.k a.hashes.reverse b.hashes.reverse with hw
  show IsKSmallest a.k (a.hashes.toFinset ∪ b.hashes.toFinset) w.reverse
  refine ⟨sorted_reverse_desc hws, ?_, ?_, ?_⟩
  · intro x hx
    rw [List.mem_reverse] at hx
    rcases hwm x hx with hx' | hx' <;> rw [List.mem_reverse] at hx'
    · exact Finset.mem_union_left _ (List.mem_toFinset.mpr hx')
    · exact Finset.mem_union_right _ (List.mem_toFinset.mpr hx')
  · rw [List.length_reverse, hwl, List.toFinset_reverse, List.toFinset_reverse]
  · intro x hx b' hb' hb'n
    rw [List.mem_reverse] at hx
    rw [List.mem_reverse] at hb'n
    have hb'' : b' ∈ a.hashes.reverse ∨ b' ∈ b.hashes.reverse := by
      rcases Finset.mem_union.mp hb' with h | h
      · exact Or.inl (List.mem_reverse.mpr (List.mem_toFinset.mp h))
      · exact Or.inr (List.mem_reverse.mpr (List.mem_toFinset.mp h))
    exact hwmin b' hb'' hb'n x hx

theorem c3_merge_spec_witness :
    ∃ m, kmh_merge ⟨2, 100, 5, [70, 30]⟩ ⟨2, 100, 5, [80, 30]⟩ = some m ∧
      m.k = (⟨2, 100, 5, [70, 30]⟩ : kvalue_minhash_t).k ∧
      m.space_size = (⟨2, 100, 5, [70, 30]⟩ : kvalue_minhash_t).space_size ∧
      m.seed = (⟨2, 100, 5, [70, 30]⟩ : kvalue_minhash_t).seed ∧
      IsKSmallest 2 ((70 :: [30]).toFinset ∪ (80 :: [30]).toFinset) m.hashes :=
  c3_merge_spec ⟨2, 100, 5, [70, 30]⟩ ⟨2, 100, 5, [80, 30]⟩ rfl rfl rfl
    (by decide) (by decide)

/-- The merge loop is symmetric in its two list arguments. -/
theorem merge_walk_comm (n : ℕ) : ∀ xs ys, merge_walk n xs ys = merge_walk n ys xs := by
  induction n with
  | zero => intro xs ys; rfl
  | succ n ih =>
    intro xs ys
    cases xs with
    | nil =>
      cases ys with
      | nil => rfl
      | cons y ys' => simp [merge_walk, ih]
    | cons x xs' =>
      cases ys with
      | nil => simp [merge_walk, ih]
      | cons y ys' =>
        simp only [merge_walk]
        rcases lt_trichotomy x y with h | h | h
        · rw [if_pos h, if_neg (lt_asymm h), if_pos h, ih]
        · subst h
          simp [ih]
        · rw [if_neg (lt_asymm h), if_pos h, if_pos h, ih]

/-- C10: merge is commutative for compatible sketches satisfying the
invariants: both orders succeed and produce sketches with identical `k`,
`count`, `space_size`, `seed` and identical hash sequences. -/
theorem c10_merge_comm (a b : kvalue_minhash_t)
    (hk : a.k = b.k) (hsp : a.space_size = b.space_size) (hseed : a.seed = b.seed)
    (_ha : a.hashes.Sorted (· > ·)) (_hb : b.hashes.Sorted (· > ·)) :
    ∃ m₁ m₂, kmh_merge a b = some m₁ ∧ kmh_merge b a = some m₂ ∧
      m₁.k = m₂.k ∧ m₁.count = m₂.count ∧ m₁.space_size = m₂.space_size ∧
      m₁.seed = m₂.seed ∧ m₁.hashes = m₂.hashes := by
  have hc1 : ¬(a.k ≠ b.k ∨ a.space_size ≠ b.space_size ∨ a.seed ≠ b.seed) := by
    simp [hk, hsp, hseed]
  have hc2 : ¬(b.k ≠ a.k ∨ b.space_size ≠ a.space_size ∨ b.seed ≠ a.seed) := by
    simp [hk, hsp, hseed]
  refine ⟨⟨a.k, a.space_size, a.seed,
      (merge_walk a.k a.hashes.reverse b.hashes.reverse).reverse⟩,
    ⟨b.k, b.space_size, b.seed,
      (merge_walk b.k b.hashes.reverse a.hashes.reverse).reverse⟩,
    by unfold kmh_merge; rw [if_neg hc1],
    by unfold kmh_merge; rw [if_neg hc2], hk, ?_, hsp, hseed, ?_⟩
  · show (merge_walk a.k a.hashes.reverse b.hashes.reverse).reverse.length =
      (merge_walk b.k b.hashes.reverse a.hashes.reverse).reverse.length
    rw [merge_walk_comm a.k, hk]
  · show (merge_walk a.k a.hashes.reverse b.hashes.reverse).reverse =
      (merge_walk b.k b.hashes.reverse a.hashes.reverse).reverse
    rw [merge_walk_comm a.k, hk]

theorem c10_merge_comm_witness :
    ∃ m₁ m₂, kmh_merge ⟨2, 100 ,5, [70, 30]⟩ ⟨2, 100, 5, [80, 30]⟩ = some m₁ ∧
      kmh_merge ⟨2, 100, 5, [80, 30]⟩ ⟨2, 100, 5, [70, 30]⟩ = some m₂ ∧
      m₁.k = m₂.k ∧ m₁.count = m₂.count ∧ m₁.space_size = m₂.space_size ∧
      m₁.seed = m₂.seed ∧ m₁.hashes = m₂.hashes :=
  c10_merge_comm ⟨2, 100, 5, [70, 30]⟩ ⟨2, 100, 5, [80, 30]⟩ rfl rfl rfl
    (by decide) (by decide)

theorem le_bytes_length : ∀ w n, (le_bytes w n).length = w
  | 0, _ => rfl
  | w + 1, n => by simp [le_bytes, le_bytes_length w]

theorem rd32_cons (b : ℕ) (l : List ℕ) (off : ℕ) :
    rd32 (b :: l) (off + 1) = rd32 l off := by
  simp [rd32, List.drop_succ_cons]

theorem rd32_append (xs rest : List ℕ) (i : ℕ) :
    rd32 (xs ++ rest) (xs.length + i) = rd32 rest i := by
  induction xs with
  | nil => simp
  | cons x xs ih =>
    simp only [List.cons_append, List.length_cons]
    rw [show xs.length + 1 + i = xs.length + i + 1 from by omega, rd32_cons]
    exact ih

/-- Reading back a 4-byte little-endian image recovers the value. -/
theorem rd32_le4 (n : ℕ) (hn : n < U32) (rest : List ℕ) :
    rd32 (le_bytes 4 n ++ rest) 0 = n := by
  have hU : U32 = 4294967296 := rfl
  rw [hU] at hn
  show n % 256 + 256 * (n / 256 % 256) + 256 ^ 2 * (n / 256 / 256 % 256) +
    256 ^ 3 * (n / 256 / 256 / 256 % 256) = n
  omega

/-- Reading 4 bytes at the start of an 8-byte little-endian image recovers
the value reduced mod `2^32`. -/
theorem rd32_le8 (n : ℕ) (rest : List ℕ) :
    rd32 (le_bytes 8 n ++ rest) 0 = n % U32 := by
  have hU : U32 = 4294967296 := rfl
  rw [hU]
  show n % 256 + 256 * (n / 256 % 256) + 256 ^ 2 * (n / 256 / 256 % 256) +
    256 ^ 3 * (n / 256 / 256 / 256 % 256) = n % 4294967296
  omega

theorem rd32_skip4 (m : ℕ) (rest : List ℕ) (i : ℕ) :
    rd32 (le_bytes 4 m ++ rest) (4 + i) = rd32 rest i := by
  have h := rd32_append (le_bytes 4 m) rest i
  rwa [le_bytes_length] at h

theorem rd32_skip8 (m : ℕ) (rest : List ℕ) (i : ℕ) :
    rd32 (le_bytes 8 m ++ rest) (8 + i) = rd32 rest i := by
  have h := rd32_append (le_bytes 8 m) rest i
  rwa [le_bytes_length] at h

theorem flatten_le4_length (l : List ℕ) :
    ((l.map (le_bytes 4)).flatten).length = 4 * l.length := by
  induction l with
  | nil => rfl
  | cons x xs ih =>
    simp only [List.map_cons, List.flatten_cons, List.length_append, le_bytes_length,
      List.length_cons, ih]
    omega

/-- Reading the `i`-th 4-byte word out of the concatenated hash images
recovers the `i`-th stored hash. -/
theorem rd32_flatten_le4 (l : List ℕ) (hl : ∀ h ∈ l, h < U32) :
    ∀ i, i < l.length → rd32 (l.map (le_bytes 4)).flatten (4 * i) = l.getD i 0 := by
  induction l with
  | nil =>
    intro i hi
    simp at hi
  | cons x xs ih =>
    intro i hi
    cases i with
    | zero =>
      simp only [List.map_cons, List.flatten_cons, Nat.mul_zero, List.getD_cons_zero]
      exact rd32_le4 x (hl x (List.mem_cons_self x xs)) _
    | succ i =>
      simp only [List.map_cons, List.flatten_cons, List.getD_cons_succ]
      rw [show 4 * (i + 1) = 4 + 4 * i from by omega, rd32_skip4]
      exact ih (fun h hh => hl h (List.mem_cons_of_mem x hh)) i (by
        simp only [List.length_cons] at hi
        omega)

theorem kmh_serialize_length (s : kvalue_minhash_t) (ptr : ℕ) :
    (kmh_serialize s ptr).length = 24 + 4 * s.hashes.length := by
  simp only [kmh_serialize, List.length_append, le_bytes_length, flatten_le4_length]
  omega

/-- Enumerating a list by `getD` over `range` of its length reproduces it. -/
theorem range_map_getD (l : List ℕ) :
    (List.range l.length).map (fun i => l.getD i 0) = l := by
  induction l with
  | nil => rfl
  | cons x xs ih =>
    rw [List.length_cons, List.range_succ_eq_map]
    simp only [List.map_cons, List.getD_cons_zero, List.map_map]
    congr 1

/-- What each 4-byte read recovers from a serialize blob: the header fields
at offsets 0, 4, 8, 12, the low word of the dumped pointer at offset 16, and
the stored hashes from offset 24 on. -/
theorem kmh_serialize_reads (s : kvalue_minhash_t) (ptr : ℕ)
    (hk : s.k < U32) (hc : s.hashes.length < U32) (hsp : s.space_size < U32)
    (hsd : s.seed < U32) (hb : ∀ h ∈ s.hashes, h < U32) :
    rd32 (kmh_serialize s ptr) 0 = s.k ∧
    rd32 (kmh_serialize s ptr) 4 = s.hashes.length ∧
    rd32 (kmh_serialize s ptr) 8 = s.space_size ∧
    rd32 (kmh_serialize s ptr) 12 = s.seed ∧
    rd32 (kmh_serialize s ptr) 16 = ptr % U32 ∧
    ∀ i, i < s.hashes.length →
      rd32 (kmh_serialize s ptr) (24 + 4 * i) = s.hashes.getD i 0 := by
  refine ⟨?_, ?_, ?_, ?_, ?_, ?_⟩
  · exact rd32_le4 s.k hk _
  · rw [kmh_serialize, show (4 : ℕ) = 4 + 0 from rfl, rd32_skip4]
    exact rd32_le4 s.hashes.length hc _
  · rw [kmh_serialize, show (8 : ℕ) = 4 + (4 + 0) from rfl, rd32_skip4, rd32_skip4]
    exact rd32_le4 s.space_size hsp _
  · rw [kmh_serialize, show (12 : ℕ) = 4 + (4 + (4 + 0)) from rfl,
      rd32_skip4, rd32_skip4, rd32_skip4]
    exact rd32_le4 s.seed hsd _
  · rw [kmh_serialize, show (16 : ℕ) = 4 + (4 + (4 + (4 + 0))) from rfl,
      rd32_skip4, rd32_skip4, rd32_skip4, rd32_skip4]
    exact rd32_le8 ptr _
  · intro i hi
    rw [kmh_serialize, show 24 + 4 * i = 4 + (4 + (4 + (4 + (8 + 4 * i)))) from by omega,
      rd32_skip4, rd32_skip4, rd32_skip4, rd32_skip4, rd32_skip8]
    exact rd32_flatten_le4 s.hashes hb i hi

/-- C4: the fast path disagrees with `kmh_cardinality` on saturated sketches.
At the saturated sketch `k = 2, space_size = 1000, seed = 7,
hashes = [500, 100]`, serialized with pointer value 4096 dumped into bytes
16–23, `kmh_cardinality_from_serialized` reads the word at offset 16 — which
holds the low half of the dumped `hashes` pointer, not `hashes[0]` — and
returns `1000 * 1 / 4097`, while `kmh_cardinality` returns `1000 * 1 / 501`.
On the unsaturated sketch `k = 2, hashes = [500]` the two agree, as only
header fields are read. -/
theorem c4_fast_cardinality_mismatch :
    kmh_cardinality_from_serialized (kmh_serialize ⟨2, 1000, 7, [500, 100]⟩ 4096) ≠
      kmh_cardinality ⟨2, 1000, 7, [500, 100]⟩ ∧
    kmh_cardinality_from_serialized (kmh_serialize ⟨2, 1000, 7, [500]⟩ 4096) =
      kmh_cardinality ⟨2, 1000, 7, [500]⟩ := by
  have e1 : kmh_cardinality_from_serialized
      (kmh_serialize ⟨2, 1000, 7, [500, 100]⟩ 4096) = (1000 : ℚ) / 4097 := by
    unfold kmh_cardinality_from_serialized
    rw [show (kmh_serialize ⟨2, 1000, 7, [500, 100]⟩ 4096).length = 32 from by decide,
      show rd32 (kmh_serialize ⟨2, 1000, 7, [500, 100]⟩ 4096) 4 = 2 from by decide,
      show rd32 (kmh_serialize ⟨2, 1000, 7, [500, 100]⟩ 4096) 0 = 2 from by decide,
      show rd32 (kmh_serialize ⟨2, 1000, 7, [500, 100]⟩ 4096) 8 = 1000 from by decide,
      show rd32 (kmh_serialize ⟨2, 1000, 7, [500, 100]⟩ 4096) 16 = 4096 from by decide,
      show (2 + (U32 - 1)) % U32 = 1 from by decide,
      show (4096 + 1) % U32 = 4097 from by decide]
    norm_num
  have e2 : kmh_cardinality ⟨2, 1000, 7, [500, 100]⟩ = (1000 : ℚ) / 501 := by
    unfold kmh_cardinality
    rw [show ((⟨2, 1000, 7, [500, 100]⟩ : kvalue_minhash_t).hashes.length) = 2 from rfl]
    rw [show ((⟨2, 1000, 7, [500, 100]⟩ : kvalue_minhash_t).hashes.headI) = 500 from rfl]
    rw [show ((⟨2, 1000, 7, [500, 100]⟩ : kvalue_minhash_t).k) = 2 from rfl,
      show ((⟨2, 1000, 7, [500, 100]⟩ : kvalue_minhash_t).space_size) = 1000 from rfl,
      show (2 + (U32 - 1)) % U32 = 1 from by decide,
      show (500 + 1) % U32 = 501 from by decide]
    norm_num
  have e3 : kmh_cardinality_from_serialized
      (kmh_serialize ⟨2, 1000, 7, [500]⟩ 4096) = (1 : ℚ) := by
    unfold kmh_cardinality_from_serialized
    rw [show (kmh_serialize ⟨2, 1000, 7, [500]⟩ 4096).length = 28 from by decide,
      show rd32 (kmh_serialize ⟨2, 1000, 7, [500]⟩ 4096) 4 = 1 from by decide,
      show rd32 (kmh_serialize ⟨2, 1000, 7, [500]⟩ 4096) 0 = 2 from by decide]
    norm_num
  have e4 : kmh_cardinality ⟨2, 1000, 7, [500]⟩ = (1 : ℚ) := by
    unfold kmh_cardinality
    rw [show ((⟨2, 1000, 7, [500]⟩ : kvalue_minhash_t).hashes.length) = 1 from rfl,
      show ((⟨2, 1000, 7, [500]⟩ : kvalue_minhash_t).k) = 2 from rfl]
    norm_num
  rw [e1, e2, e3, e4]
  norm_num

/-- C5: the serialize blob of the concrete saturated sketch `k = 2,
count = 2` is `24 + 4 * count = 32` bytes — the raw 24-byte struct dump
(including the 8-byte `hashes` pointer at offset 16) plus the hash words —
not the `16 + 4 * count = 24` bytes the spec states; the four header fields
do sit at offsets 0, 4, 8, 12, but the first stored hash sits at offset 24,
and offset 16 holds the dumped pointer word instead. -/
theorem c5_serialize_layout :
    (kmh_serialize ⟨2, 1000, 7, [500, 100]⟩ 4096).length =
      24 + 4 * (⟨2, 1000, 7, [500, 100]⟩ : kvalue_minhash_t).count ∧
    (kmh_serialize ⟨2, 1000, 7, [500, 100]⟩ 4096).length ≠
      16 + 4 * (⟨2, 1000, 7, [500, 100]⟩ : kvalue_minhash_t).count ∧
    rd32 (kmh_serialize ⟨2, 1000, 7, [500, 100]⟩ 4096) 0 = 2 ∧
    rd32 (kmh_serialize ⟨2, 1000, 7, [500, 100]⟩ 4096) 4 = 2 ∧
    rd32 (kmh_serialize ⟨2, 1000, 7, [500, 100]⟩ 4096) 8 = 1000 ∧
    rd32 (kmh_serialize ⟨2, 1000, 7, [500, 100]⟩ 4096) 12 = 7 ∧
    rd32 (kmh_serialize ⟨2, 1000, 7, [500, 100]⟩ 4096) 24 = 500 ∧
    rd32 (kmh_serialize ⟨2, 1000, 7, [500, 100]⟩ 4096) 28 = 100 ∧
    rd32 (kmh_serialize ⟨2, 1000, 7, [500, 100]⟩ 4096) 16 = 4096 := by
  decide

/-- C6 fails as stated: the sketch `k = 10241, space_size = 5, seed = 0,
count = 0` satisfies every sketch invariant, yet deserializing its serialize
blob is rejected, because the deserializer refuses any decoded
`k > MAX_K * 10 = 10240`. -/
theorem c6_roundtrip_counterexample :
    kmh_deserialize (kmh_serialize ⟨10241, 5, 0, []⟩ 0) = none := by
  decide

/-- C6 (amended): for every sketch satisfying the sketch invariants whose
`k` is at most `MAX_K * 10 = 10240`, `kmh_deserialize` of
`kmh_serialize` succeeds and reproduces `k`, `count`, `space_size`, `seed`
and every stored hash in the same order. -/
theorem c6_roundtrip (s : kvalue_minhash_t) (ptr : ℕ)
    (hck : s.count ≤ s.k) (hkb : s.k ≤ MAX_K * 10)
    (hsp : s.space_size < U32) (hsd : s.seed < U32)
    (hb : ∀ h ∈ s.hashes, h < U32) :
    ∃ t, kmh_deserialize (kmh_serialize s ptr) = some t ∧
      t.k = s.k ∧ t.count = s.count ∧ t.space_size = s.space_size ∧
      t.seed = s.seed ∧ t.hashes = s.hashes := by
  rw [kvalue_minhash_t.count] at hck
  have hk32 : s.k < U32 := lt_of_le_of_lt hkb (by norm_num [MAX_K, U32])
  have hc32 : s.hashes.length < U32 := lt_of_le_of_lt hck hk32
  obtain ⟨r0, r4, r8, r12, _, rh⟩ := kmh_serialize_reads s ptr hk32 hc32 hsp hsd hb
  have hlen := kmh_serialize_length s ptr
  refine ⟨⟨s.k, s.space_size, s.seed, s.hashes⟩, ?_, rfl, rfl, rfl, rfl, rfl⟩
  unfold kmh_deserialize
  rw [if_neg (by omega : ¬(kmh_serialize s ptr).length < 24)]
  rw [r0, r4, r8, r12]
  rw [if_neg (by
    push_neg
    refine ⟨hck, le_trans hkb (le_refl _), ?_⟩
    omega)]
  have hmap : (List.range s.hashes.length).map
      (fun i => rd32 (kmh_serialize s ptr) (24 + 4 * i)) = s.hashes := by
    rw [List.map_congr_left fun i hi => rh i (List.mem_range.mp hi)]
    exact range_map_getD s.hashes
  rw [hmap]

theorem c6_roundtrip_witness :
    ∃ t, kmh_deserialize (kmh_serialize ⟨2, 1000, 7, [500, 100]⟩ 4096) = some t ∧
      t.k = (⟨2, 1000, 7, [500, 100]⟩ : kvalue_minhash_t).k ∧
      t.count = (⟨2, 1000, 7, [500, 100]⟩ : kvalue_minhash_t).count ∧
      t.space_size = (⟨2, 1000, 7, [500, 100]⟩ : kvalue_minhash_t).space_size ∧
      t.seed = (⟨2, 1000, 7, [500, 100]⟩ : kvalue_minhash_t).seed ∧
      t.hashes = (⟨2, 1000, 7, [500, 100]⟩ : kvalue_minhash_t).hashes :=
  c6_roundtrip ⟨2, 1000, 7, [500, 100]⟩ 4096 (by decide) (by decide) (by decide)
    (by decide) (by decide)

/-- C9 fails as stated.  First input: a 16-byte all-zero blob — none of the
claim's failure conditions hold (`length = 16`, `count = 0 ≤ k = 0`, small
`k`, `length = 16 + 4 * count`), yet `kmh_deserialize` rejects it (it
requires the 24-byte struct image).  Second input: a 28-byte blob with
`k = 1, count = 0` and four trailing garbage bytes — the claim's
`length ≠ 16 + 4 * count` condition holds, so the claim says it must fail,
yet `kmh_deserialize` accepts it (it only requires
`length ≥ 24 + 4 * count`). -/
theorem c9_deserialize_counterexample :
    (kmh_deserialize (List.replicate 16 0) = none ∧
      ¬((List.replicate 16 0).length < 16) ∧
      ¬(rd32 (List.replicate 16 0) 4 > rd32 (List.replicate 16 0) 0) ∧
      ¬(rd32 (List.replicate 16 0) 0 > MAX_K * 10) ∧
      (List.replicate 16 0).length = 16 + 4 * rd32 (List.replicate 16 0) 4) ∧
    ((kmh_deserialize
        [1, 0, 0, 0, 0, 0, 0, 0, 5, 0, 0, 0, 0, 0, 0, 0,
         0, 0, 0, 0, 0, 0, 0, 0, 9, 9, 9, 9]).isSome = true ∧
      ([1, 0, 0, 0, 0, 0, 0, 0, 5, 0, 0, 0, 0, 0, 0, 0,
         0, 0, 0, 0, 0, 0, 0, 0, 9, 9, 9, 9] : List ℕ).length ≠
        16 + 4 * rd32 [1, 0, 0, 0, 0, 0, 0, 0, 5, 0, 0, 0, 0, 0, 0, 0,
         0, 0, 0, 0, 0, 0, 0, 0, 9, 9, 9, 9] 4) := by
  decide

/-- C9 (amended): `kmh_deserialize` fails exactly when the blob is shorter
than the 24-byte struct image, or the decoded `count` exceeds the decoded
`k`, or the decoded `k` exceeds `MAX_K * 10 = 10240`, or the blob is shorter
than `24 + 4 * count` (longer blobs are accepted); and
`kmh_cardinality_from_serialized` returns `-1` on every blob shorter than 16
bytes. -/
theorem c9_deserialize_errors :
    (∀ buf : List ℕ, kmh_deserialize buf = none ↔
      (buf.length < 24 ∨ rd32 buf 4 > rd32 buf 0 ∨ rd32 buf 0 > MAX_K * 10 ∨
        buf.length < 24 + rd32 buf 4 * 4)) ∧
    ∀ buf : List ℕ, buf.length < 16 → kmh_cardinality_from_serialized buf = -1 := by
  constructor
  · intro buf
    unfold kmh_deserialize
    split_ifs with h1 h2
    · exact iff_of_true rfl (Or.inl h1)
    · exact iff_of_true rfl (by tauto)
    · refine iff_of_false (by simp) (by tauto)
  · intro buf h
    unfold kmh_cardinality_from_serialized
    rw [if_pos h]

theorem c9_deserialize_errors_witness :
    (kmh_deserialize [] = none ↔
      (([] : List ℕ).length < 24 ∨ rd32 [] 4 > rd32 [] 0 ∨
        rd32 [] 0 > MAX_K * 10 ∨ ([] : List ℕ).length < 24 + rd32 [] 4 * 4)) ∧
    kmh_cardinality_from_serialized [] = -1 :=
  ⟨c9_deserialize_errors.1 [], c9_deserialize_errors.2 [] (by decide)⟩

end KMH
